import Mathlib

/-!
Verification of the `targetsum` wasm-solver core (src/wasm-solver/src/solver.rs
and src/wasm-solver/src/batch.rs) against its natural-language specification.

The Rust core is shallowly embedded: u64 values are modelled as `Nat` (with the
saturating additions of the suffix-sum table modelled explicitly via `satAdd`,
which clamps at `U64MAX`), `usize` as `Nat` (`saturating_sub` is ordinary `Nat`
subtraction), mutable loops as structurally/well-founded recursive functions,
and the shared `AtomicBool` cancellation flag as a `Bool` that is constant for
the duration of one call (no writer runs concurrently with the search in the
single-threaded wasm host).  Rust's `Vec` push/pop stack is modelled as a
`List` whose head is the top of the stack, and `sort_unstable_by_key` as
`List.insertionSort` over the corresponding key order (the spec notes that tie
order among equal keys is irrelevant).  The f64 progress ratio is modelled as
an exact rational; f64 division by a fixed positive denominator is monotone and
the constants 0.999 and 1.0 are exactly representable, so the order-theoretic
claims about progress transfer.
-/

namespace TargetSum

/-- Model of `NumberEntry` (solver.rs lines 5-9): a value plus the original
CSV row index it came from. -/
structure NumberEntry where
  value : Nat
  original_index : Nat
deriving DecidableEq, Repr, Inhabited

/-- Largest u64 value; saturating arithmetic clamps here. -/
def U64MAX : Nat := 2 ^ 64 - 1

/-- Model of `u64::saturating_add`. -/
def satAdd (a b : Nat) : Nat := min (a + b) U64MAX

/-- Sum of the `value` fields of a list of entries. -/
def valueSum (l : List NumberEntry) : Nat := (l.map (fun e => e.value)).sum

/-- Value order used by `sort_unstable_by_key(|e| e.value)`. -/
def valueLE (a b : NumberEntry) : Prop := a.value ≤ b.value

instance : DecidableRel valueLE := fun a b => Nat.decLe a.value b.value

instance : IsTotal NumberEntry valueLE := ⟨fun a b => Nat.le_total a.value b.value⟩

instance : IsTrans NumberEntry valueLE := ⟨fun _ _ _ => Nat.le_trans⟩

/-- Original-index order used by `sort_unstable_by_key(|e| e.original_index)`
(solver.rs line 197). -/
def origLE (a b : NumberEntry) : Prop := a.original_index ≤ b.original_index

instance : DecidableRel origLE := fun a b => Nat.decLe a.original_index b.original_index

instance : IsTotal NumberEntry origLE := ⟨fun a b => Nat.le_total a.original_index b.original_index⟩

instance : IsTrans NumberEntry origLE := ⟨fun _ _ _ => Nat.le_trans⟩

/-- Model of `entries.sort_unstable_by_key(|e| e.value)` (solver.rs line 36,
batch.rs line 60): some permutation of the input that is ascending by value. -/
def sortByValue (entries : List NumberEntry) : List NumberEntry :=
  List.insertionSort valueLE entries

/-- Model of `result.sort_unstable_by_key(|e| e.original_index)`
(solver.rs line 197). -/
def sortByOrig (entries : List NumberEntry) : List NumberEntry :=
  List.insertionSort origLE entries

/-- Model of the suffix-sum table built in `PreparedData::new` (solver.rs lines
38-42) and `BatchSearchState::new` (batch.rs lines 62-66): a list of length
`n + 1` with `suffix_sum[i] = suffix_sum[i+1].saturating_add(sorted[i].value)`
and `suffix_sum[n] = 0`. -/
def buildSuffix : List NumberEntry → List Nat
  | [] => [0]
  | e :: rest => satAdd ((buildSuffix rest).headD 0) e.value :: buildSuffix rest

/-- Model of `SolverConfig` (solver.rs lines 11-16).  The `cancelled` atomic
flag is modelled as a `Bool` that is constant during a call. -/
structure SolverConfig where
  target : Nat
  min_count : Nat
  max_count : Nat
  cancelled : Bool

/-- Model of `SolverResult` (solver.rs lines 18-22). -/
inductive SolverResult where
  | found (entries : List NumberEntry)
  | notFound
  | cancelled
deriving DecidableEq, Repr

/-- Whether a `SolverResult` is a `Found`. -/
def SolverResult.isFound : SolverResult → Bool
  | SolverResult.found _ => true
  | _ => false

/-- Model of `PreparedData` (solver.rs lines 26-31). -/
structure PreparedData where
  sorted : List NumberEntry
  suffix_sum : List Nat
deriving DecidableEq, Repr

/-- Model of `PreparedData::new` (solver.rs lines 34-45). -/
def PreparedData.new (entries : List NumberEntry) : PreparedData :=
  { sorted := sortByValue entries, suffix_sum := buildSuffix (sortByValue entries) }

/-- Model of one DFS stack frame of the batch engine (batch.rs lines 8-13). -/
structure Frame where
  start : Nat
  current_sum : Nat
  path_len : Nat
deriving DecidableEq, Repr

/-- Model of `BatchSearchState` (batch.rs lines 15-35).  The Rust `Vec` stack
(push/pop at the back, `last_mut` is the top) is modelled as a `List Frame`
whose head is the top of the stack. -/
structure BatchSearchState where
  sorted : List NumberEntry
  suffix_sum : List Nat
  target : Nat
  min_count : Nat
  max_count : Nat
  max_results : Nat
  stack : List Frame
  path : List Nat
  results : List (List NumberEntry)
  nodes_explored : Nat
  finished : Bool
  top_level_n : Nat
  top_level_done : Nat
deriving DecidableEq, Repr

/-- Model of `BatchResult` (batch.rs lines 38-49).  The f64 progress ratio is
modelled as an exact rational. -/
structure BatchResult where
  new_results : List (List NumberEntry)
  total_found : Nat
  nodes_explored : Nat
  finished : Bool
  progress : ℚ
deriving DecidableEq, Repr

/-- Model of `BatchSearchState::new` (batch.rs lines 52-105): sort, build the
suffix table, run the feasibility pre-check, and seed the root frame unless
the instance is already known infeasible. -/
def BatchSearchState.new (entries : List NumberEntry)
    (target min_count max_count max_results : Nat) : BatchSearchState :=
  let sorted := sortByValue entries
  let n := sorted.length
  let suffix_sum := buildSuffix sorted
  let finished0 := n = 0 ∨ suffix_sum.getD 0 0 < target ∨ n < min_count
  let finished :=
    finished0 ∨ (0 < min_count ∧ target < valueSum (sorted.take min_count))
  { sorted := sorted
    suffix_sum := suffix_sum
    target := target
    min_count := min_count
    max_count := max_count
    max_results := max_results
    stack := if finished then [] else [{ start := 0, current_sum := 0, path_len := 0 }]
    path := []
    results := []
    nodes_explored := 0
    finished := finished
    top_level_n := n
    top_level_done := 0 }

/-- Overwrite the `start` field of the top stack frame, modelling
`self.stack.last_mut().unwrap().start = v` (batch.rs lines 150-151). -/
def setTopStart : List Frame → Nat → List Frame
  | [], _ => []
  | f :: rest, v => { f with start := v } :: rest

/-- The combination materialised at batch.rs lines 167-169: the current path
(truncated to the frame depth `pl` with the chosen index `i` pushed) mapped
through `sorted`. -/
def comboAt (s : BatchSearchState) (pl i : Nat) : List NumberEntry :=
  (s.path.take pl ++ [i]).map (fun idx => s.sorted.getD idx default)

/-- Model of the inner `while i < n` scan of `search_batch` (batch.rs lines
130-194): starting from candidate index `i`, find the next admissible child of
the current top frame.  `pl`, `csum` are the frame fields read at the top of
the outer iteration (batch.rs lines 117-119), and `rbv`/`rneed` the remaining
budget `target - csum` and remaining needed count
`min_count.saturating_sub(pl)` hoisted before the loop (batch.rs lines
126-127).  The loop runs for at most `n - i` iterations; the first argument is
that bound, carried explicitly so the function is structurally recursive, and
the source's loop guard `i < n` is kept alongside it (the caller passes the
bound `n - i`, which keeps the two guards equivalent).  Returns the updated
session state together with the Rust `found_child` flag. -/
def scanFrame (fuel : Nat) (n : Nat) (s : BatchSearchState) (pl csum rbv rneed : Nat)
    (i : Nat) : BatchSearchState × Bool :=
  match fuel with
  | 0 => (s, false)
  | fuel + 1 =>
    if i < n then
      if rbv < (s.sorted.getD i default).value then (s, false)
      else if s.suffix_sum.getD i 0 < rbv then (s, false)
      else if n - i < rneed then (s, false)
      else if csum + (s.sorted.getD i default).value = s.target ∧ s.min_count ≤ pl + 1 then
        -- the chosen child is a solution (batch.rs lines 166-181): the frame's
        -- start is advanced to `i + 1`, the path rebuilt as `take pl ++ [i]`,
        -- the top-level counter updated at depth 0, and the combination
        -- recorded; at the result cap the stack is cleared and the session
        -- marked finished, otherwise the scan continues with the next sibling
        if s.max_results ≤ s.results.length + 1 then
          ({ s with stack := [],
                    path := s.path.take pl ++ [i],
                    results := s.results ++ [comboAt s pl i],
                    top_level_done := if pl = 0 then i + 1 else s.top_level_done,
                    finished := true }, false)
        else
          scanFrame fuel n
            { s with stack := setTopStart s.stack (i + 1),
                     path := s.path.take pl ++ [i],
                     results := s.results ++ [comboAt s pl i],
                     top_level_done := if pl = 0 then i + 1 else s.top_level_done }
            pl csum rbv rneed (i + 1)
      -- not a solution (batch.rs lines 183-193): push a deeper frame when the
      -- depth allows it and report `found_child = true`
      else if pl + 1 < s.max_count then
        ({ s with stack :=
                    { start := i + 1, current_sum := csum + (s.sorted.getD i default).value,
                      path_len := pl + 1 } :: setTopStart s.stack (i + 1),
                  path := s.path.take pl ++ [i],
                  top_level_done := if pl = 0 then i + 1 else s.top_level_done }, true)
      else
        ({ s with stack := setTopStart s.stack (i + 1),
                  path := s.path.take pl ++ [i],
                  top_level_done := if pl = 0 then i + 1 else s.top_level_done }, true)
    else (s, false)

/-- Model of the post-scan bookkeeping of one outer iteration (batch.rs lines
196-206): when the scan reported no child (`found_child == false`), pop the
top frame (a no-op on an already cleared stack, like `Vec::pop`), and when at
most one frame remains and the popped frame was at depth `<= 1`, write the
popped frame's resume index into the top-level progress counter. -/
def popAdjust (pl start0 : Nat) (pr : BatchSearchState × Bool) : BatchSearchState :=
  if pr.2 then pr.1
  else if pr.1.stack.tail.length ≤ 1 ∧ pl ≤ 1 then
    { pr.1 with stack := pr.1.stack.tail, top_level_done := start0 }
  else { pr.1 with stack := pr.1.stack.tail }

/-- Model of one iteration of the outer `while` loop of `search_batch`
(batch.rs lines 112-206), minus the budget/node-counter bookkeeping which is
handled by `searchLoop`: read the top frame, truncate the path back to its
depth, scan for the next admissible child, and run the pop bookkeeping. -/
def stepOnce (s : BatchSearchState) : BatchSearchState :=
  match s.stack with
  | [] => s
  | frame :: _ =>
    popAdjust frame.path_len frame.start
      (scanFrame (s.sorted.length - frame.start) s.sorted.length
        { s with path := s.path.take frame.path_len } frame.path_len frame.current_sum
        (s.target - frame.current_sum) (s.min_count - frame.path_len) frame.start)

/-- Model of the outer `while` loop of `search_batch` (batch.rs line 112):
run while budget remains, the stack is non-empty, and the result cap is not
reached; each iteration burns one budget unit and counts one explored node. -/
def searchLoop : Nat → BatchSearchState → BatchSearchState
  | 0, s => s
  | b + 1, s =>
    if s.stack ≠ [] ∧ s.results.length < s.max_results then
      searchLoop b (stepOnce { s with nodes_explored := s.nodes_explored + 1 })
    else s

/-- Model of `BatchSearchState::search_batch` (batch.rs lines 108-228):
run up to `node_budget` loop iterations, set `finished` when the stack is
empty or the cap is reached, and assemble the `BatchResult`. -/
def BatchSearchState.searchBatch (s : BatchSearchState) (node_budget : Nat) :
    BatchSearchState × BatchResult :=
  let prev_found := s.results.length
  let t := searchLoop node_budget s
  let t2 := if t.stack = [] ∨ t.max_results ≤ t.results.length then
      { t with finished := true }
    else t
  let raw : ℚ := if 0 < t2.top_level_n then
      (t2.top_level_done : ℚ) / (t2.top_level_n : ℚ)
    else 1
  (t2,
   { new_results := t2.results.drop prev_found
     total_found := t2.results.length
     nodes_explored := t2.nodes_explored
     finished := t2.finished
     progress := if t2.finished then 1 else min raw (999 / 1000) })

/-- Model of repeatedly driving one session: `init_batch_search` followed by a
sequence of `search_batch` calls with the given node budgets (lib.rs lines
72-109 route exactly these two operations to one session object). -/
def runBudgets (s : BatchSearchState) (budgets : List Nat) : BatchSearchState :=
  budgets.foldl (fun t b => (t.searchBatch b).1) s

/-- The session states that can actually occur: a freshly created session, or
the state left behind by a `search_batch` call on a reachable session. -/
inductive Reachable : BatchSearchState → Prop
  | init (entries : List NumberEntry) (target min_count max_count max_results : Nat) :
      Reachable (BatchSearchState.new entries target min_count max_count max_results)
  | step (s : BatchSearchState) (b : Nat) (h : Reachable s) :
      Reachable (s.searchBatch b).1

/-- The entries of `half` whose bit is set in `mask`, LSB first: bit `b` of the
mask corresponds to `half[b]`, exactly as in the reassembly loops of
`meet_in_the_middle` (solver.rs lines 187-196). -/
def maskSelect : List NumberEntry → Nat → List NumberEntry
  | [], _ => []
  | e :: rest, mask =>
    if mask % 2 = 1 then e :: maskSelect rest (mask / 2) else maskSelect rest (mask / 2)

/-- Model of the per-mask accumulation loop of `meet_in_the_middle` (solver.rs
lines 141-153 and 166-178): walk the bits of `mask` from the LSB (bit `b` is
`half[b]`; the bit loop is rendered as recursion over the list with the mask
halved at each step), add the value of each selected entry to the u64 running
`sum` and bump `count`, and abort with `none` as soon as the running sum
exceeds `target` (the Rust `overflow = true; break` path, which `continue`s to
the next mask).  The Rust `sum += value` is a plain u64 addition: in release
builds it wraps modulo `2^64` when the sum leaves u64 range, modelled here by
the explicit `% 2 ^ 64` (the sum entering each addition is at most `target`,
so no wrap can occur when `2 * target ≤ U64MAX` and every value is at most
`target`, but wraps are reachable for larger targets). -/
def halfScan (target : Nat) : List NumberEntry → Nat → Nat → Nat → Option (Nat × Nat)
  | [], _, sum, count => some (sum, count)
  | e :: rest, mask, sum, count =>
    if mask % 2 = 1 then
      if target < (sum + e.value) % 2 ^ 64 then none
      else halfScan target rest (mask / 2) ((sum + e.value) % 2 ^ 64) (count + 1)
    else halfScan target rest (mask / 2) sum count

/-- Model of `left_map.get(&needed)` (solver.rs lines 134-158 and 182): the
`(count, mask)` pairs pushed for key `needed`, in insertion order.  Masks are
enumerated in ascending order and each surviving `(count, mask)` with
`count <= max_count` is appended to its sum's bucket, so the bucket for
`needed` is the ascending-mask filter below. -/
def leftCandidates (left : List NumberEntry) (target maxc needed : Nat) :
    List (Nat × Nat) :=
  (List.range (2 ^ left.length)).filterMap fun mask =>
    match halfScan target left mask 0 0 with
    | none => none
    | some (sum, count) =>
      if count ≤ maxc ∧ sum = needed then some (count, mask) else none

/-- Model of `meet_in_the_middle` (solver.rs lines 124-205).  The halves are
`sorted[..mid]` and `sorted[mid..]`.  Right masks are enumerated in ascending
order and the first complementary pair whose combined count lies in
`[min_count, max_count]` is reassembled and sorted by original index.  The
periodic cancellation poll (`mask & 0xFFFF == 0`, solver.rs lines 138 and 163)
always fires at mask 0, so with the flag modelled as constant during the call
a cancelled run returns `None` at the very first mask; this is the up-front
`cancelled` test below. -/
def meetInTheMiddle (data : PreparedData) (cfg : SolverConfig) :
    Option (List NumberEntry) :=
  if cfg.cancelled then none
  else
    (List.range (2 ^ (data.sorted.drop (data.sorted.length / 2)).length)).findSome?
      fun rmask =>
        match halfScan cfg.target (data.sorted.drop (data.sorted.length / 2)) rmask 0 0 with
        | none => none
        | some (rsum, rcount) =>
          (leftCandidates (data.sorted.take (data.sorted.length / 2)) cfg.target
              cfg.max_count (cfg.target - rsum)).findSome? fun lc =>
            if cfg.min_count ≤ lc.1 + rcount ∧ lc.1 + rcount ≤ cfg.max_count then
              some (sortByOrig
                (maskSelect (data.sorted.take (data.sorted.length / 2)) lc.2 ++
                  maskSelect (data.sorted.drop (data.sorted.length / 2)) rmask))
            else none

/-- Model of the private `BbResult` (solver.rs lines 227-231); `found` carries
the `path` vector (indices into `sorted`) that the Rust code mutates in
place. -/
inductive BbRes where
  | found (path : List Nat)
  | notFound
  | cancelled
deriving DecidableEq, Repr

/-- Whether a `BbRes` is a `found`. -/
def BbRes.isFound : BbRes → Bool
  | BbRes.found _ => true
  | _ => false

/-- Model of `check_counter.wrapping_add(1)` on u64. -/
def tick (c : Nat) : Nat := (c + 1) % 2 ^ 64

mutual

/-- Model of `bb_dfs_first` (solver.rs lines 233-299), node part: cancellation
poll (every 4096 nodes via the wrapping counter), success test, dead-end tests,
then the candidate loop `bbLoop`.  The mutated `path`/`check_counter` are
threaded functionally: `found` carries the final path, and the counter is
returned alongside the result. -/
def bbDfsFirst (data : PreparedData) (cfg : SolverConfig)
    (start current_sum current_count : Nat) (path : List Nat) (counter : Nat) :
    BbRes × Nat :=
  if tick counter % 4096 = 0 ∧ cfg.cancelled then (BbRes.cancelled, tick counter)
  else if current_sum = cfg.target ∧ cfg.min_count ≤ current_count then
    (BbRes.found path, tick counter)
  else if cfg.max_count ≤ current_count then (BbRes.notFound, tick counter)
  else if data.sorted.length - start < cfg.min_count - current_count then
    (BbRes.notFound, tick counter)
  else bbLoop data cfg current_sum current_count path (tick counter) start
termination_by (data.sorted.length - start) * 2 + 1

/-- Model of the `for i in start..n` loop of `bb_dfs_first` (solver.rs lines
265-296).  The remaining budget `target - current_sum` and remaining needed
count are loop-invariant and recomputed here instead of hoisted.  On a
`NotFound` child the Rust code pops `i` off the path again, so the sibling
iteration continues with the unchanged `path`. -/
def bbLoop (data : PreparedData) (cfg : SolverConfig)
    (current_sum current_count : Nat) (path : List Nat) (counter : Nat) (i : Nat) :
    BbRes × Nat :=
  if h : i < data.sorted.length then
    let value := (data.sorted.getD i default).value
    if cfg.target - current_sum < value then (BbRes.notFound, counter)
    else if data.suffix_sum.getD i 0 < cfg.target - current_sum then
      (BbRes.notFound, counter)
    else if data.sorted.length - i < cfg.min_count - current_count then
      (BbRes.notFound, counter)
    else
      match bbDfsFirst data cfg (i + 1) (current_sum + value) (current_count + 1)
        (path ++ [i]) counter with
      | (BbRes.found p, c) => (BbRes.found p, c)
      | (BbRes.cancelled, c) => (BbRes.cancelled, c)
      | (BbRes.notFound, c) => bbLoop data cfg current_sum current_count path c (i + 1)
  else (BbRes.notFound, counter)
termination_by (data.sorted.length - i) * 2

end

/-- Model of `branch_and_bound_first` (solver.rs lines 211-225): run the DFS
from the root and map the found index path through `sorted`. -/
def branchAndBoundFirst (data : PreparedData) (cfg : SolverConfig) : SolverResult :=
  match (bbDfsFirst data cfg 0 0 0 [] 0).1 with
  | BbRes.found p => SolverResult.found (p.map (fun i => data.sorted.getD i default))
  | BbRes.cancelled => SolverResult.cancelled
  | BbRes.notFound => SolverResult.notFound

/-- Model of `solve_subset_sum` (solver.rs lines 53-86): preparation, the
feasibility pre-checks, and the dispatch between meet-in-the-middle
(`n <= 40 && max_count >= min_count`) and branch-and-bound. -/
def solveSubsetSum (entries : List NumberEntry) (cfg : SolverConfig) : SolverResult :=
  let data := PreparedData.new entries
  let n := data.sorted.length
  if n = 0 then SolverResult.notFound
  else if data.suffix_sum.getD 0 0 < cfg.target then SolverResult.notFound
  else if n < cfg.min_count ∨ cfg.max_count < 1 then SolverResult.notFound
  else if 0 < cfg.min_count ∧ cfg.target < valueSum (data.sorted.take cfg.min_count) then
    SolverResult.notFound
  else if n ≤ 40 ∧ cfg.min_count ≤ cfg.max_count then
    match meetInTheMiddle data cfg with
    | some result => SolverResult.found result
    | none => if cfg.cancelled then SolverResult.cancelled else SolverResult.notFound
  else branchAndBoundFirst data cfg

/-- The post-loop finalisation of `search_batch` (batch.rs lines 209-211): mark
the session finished when the stack is empty or the result cap is reached. -/
def markFin (t : BatchSearchState) : BatchSearchState :=
  if t.stack = [] ∨ t.max_results ≤ t.results.length then { t with finished := true } else t

/-- A valid combination exists: some sub-selection of `sorted` (each element
used at most once, in order) sums to the target with a length inside the
configured count window. -/
def Feasible (sorted : List NumberEntry) (cfg : SolverConfig) : Prop :=
  ∃ c, c.Sublist sorted ∧ valueSum c = cfg.target ∧
    cfg.min_count ≤ c.length ∧ cfg.max_count ≥ c.length

/-- A DFS node `(start, sum, count)` extends to a full solution: some further
sub-selection of `sorted[start..]` closes the gap to the target within the
count window. -/
def ExtendsToSolution (sorted : List NumberEntry) (cfg : SolverConfig)
    (start sum count : Nat) : Prop :=
  ∃ tail, tail.Sublist (sorted.drop start) ∧ sum + valueSum tail = cfg.target ∧
    cfg.min_count ≤ count + tail.length ∧ cfg.max_count ≥ count + tail.length

/-- Like `ExtendsToSolution`, but the extension must pick at least one further
element; this is the obligation seen by the candidate loop at index `i`. -/
def ExtendsNonempty (sorted : List NumberEntry) (cfg : SolverConfig)
    (i sum count : Nat) : Prop :=
  ∃ tail, tail ≠ [] ∧ tail.Sublist (sorted.drop i) ∧ sum + valueSum tail = cfg.target ∧
    cfg.min_count ≤ count + tail.length ∧ cfg.max_count ≥ count + tail.length

/-! Theorems.  First the demonstrations of the spots where the batch engine
deviates from the specified behaviour (claims C1, C2, C3, C6), then the
invariant and equivalence proofs (claims C4, C5, C7, C8, C9, C10). -/

/-- Unfolding of the `progress` field returned by `search_batch`: `1` exactly
when finished, otherwise the top-level ratio clamped at `0.999`. -/
theorem searchBatch_progress (s : BatchSearchState) (b : Nat) :
    (s.searchBatch b).2.progress =
      if (s.searchBatch b).1.finished then 1
      else min (if 0 < (s.searchBatch b).1.top_level_n then
          ((s.searchBatch b).1.top_level_done : ℚ) / ((s.searchBatch b).1.top_level_n : ℚ)
        else 1) (999 / 1000) := rfl

/-- C1: refuted as stated.  A batch session created with `maxCount = 0` on the
single entry `5` with target `5` returns the combination `[5]`, whose count `1`
exceeds `maxCount = 0`: `BatchSearchState::new` omits the `max_count < 1`
pre-check that `solve_subset_sum` performs, and the scan tests a child for
being a solution before any count gate, so the root frame emits singleton
combinations above the cap.  (For `maxCount ≥ 1`, every frame's depth stays
below `max_count` and the violation cannot occur.) -/
theorem c1_batch_combo_exceeds_max_count :
    ((BatchSearchState.new [⟨5, 0⟩] 5 0 0 10).searchBatch 10).2.new_results = [[⟨5, 0⟩]] ∧
      (BatchSearchState.new [⟨5, 0⟩] 5 0 0 10).max_count = 0 := by decide

/-- C2: refuted as stated.  A batch session on the entries `(2, idx 0)` and
`(1, idx 1)` with target `3` reports the combination in ascending value order
`[(1, idx 1), (2, idx 0)]` — original indices `[1, 0]`, not ascending.  Only
the meet-in-the-middle path sorts its result by `original_index` (solver.rs
line 197); `branch_and_bound_first` and the batch engine materialise the path
in sorted-by-value order. -/
theorem c2_batch_combo_not_sorted_by_original_index :
    ((BatchSearchState.new [⟨2, 0⟩, ⟨1, 1⟩] 3 1 2 10).searchBatch 10).2.new_results =
      [[⟨1, 1⟩, ⟨2, 0⟩]] := by decide

/-- C3: refuted as stated.  On values `[1, 1, 1, 1]`, target `3`,
`minCount = 0`, `maxCount = 2`, `maxResults = 1000`, five consecutive
`search_batch(1)` calls report progress `1/4, 1/4, 1/4, 3/4, 1/2`, all with
`finished = false`: the fifth step's progress is strictly below the fourth's.
When a depth-1 frame is popped, batch.rs lines 202-204 write that frame's
sibling resume index into `top_level_done`, overstating top-level progress,
which the next root-level step then lowers again. -/
theorem c3_progress_decreases_between_unfinished_steps :
    (((((BatchSearchState.new [⟨1, 0⟩, ⟨1, 1⟩, ⟨1, 2⟩, ⟨1, 3⟩] 3 0 2 1000).searchBatch
        1).1.searchBatch 1).1.searchBatch 1).1.searchBatch 1).2.finished = false ∧
    ((((((BatchSearchState.new [⟨1, 0⟩, ⟨1, 1⟩, ⟨1, 2⟩, ⟨1, 3⟩] 3 0 2 1000).searchBatch
        1).1.searchBatch 1).1.searchBatch 1).1.searchBatch 1).1.searchBatch 1).2.finished = false ∧
    ((((((BatchSearchState.new [⟨1, 0⟩, ⟨1, 1⟩, ⟨1, 2⟩, ⟨1, 3⟩] 3 0 2 1000).searchBatch
        1).1.searchBatch 1).1.searchBatch 1).1.searchBatch 1).1.searchBatch 1).2.progress <
      (((((BatchSearchState.new [⟨1, 0⟩, ⟨1, 1⟩, ⟨1, 2⟩, ⟨1, 3⟩] 3 0 2 1000).searchBatch
        1).1.searchBatch 1).1.searchBatch 1).1.searchBatch 1).2.progress := by
  refine ⟨by decide, by decide, ?_⟩
  rw [searchBatch_progress, searchBatch_progress]
  have h4f : (((((BatchSearchState.new [⟨1, 0⟩, ⟨1, 1⟩, ⟨1, 2⟩, ⟨1, 3⟩] 3 0 2 1000).searchBatch
      1).1.searchBatch 1).1.searchBatch 1).1.searchBatch 1).1.finished = false := by decide
  have h5f : ((((((BatchSearchState.new [⟨1, 0⟩, ⟨1, 1⟩, ⟨1, 2⟩, ⟨1, 3⟩] 3 0 2 1000).searchBatch
      1).1.searchBatch 1).1.searchBatch 1).1.searchBatch 1).1.searchBatch 1).1.finished = false := by
    decide
  have h4d : (((((BatchSearchState.new [⟨1, 0⟩, ⟨1, 1⟩, ⟨1, 2⟩, ⟨1, 3⟩] 3 0 2 1000).searchBatch
      1).1.searchBatch 1).1.searchBatch 1).1.searchBatch 1).1.top_level_done = 3 := by decide
  have h4n : (((((BatchSearchState.new [⟨1, 0⟩, ⟨1, 1⟩, ⟨1, 2⟩, ⟨1, 3⟩] 3 0 2 1000).searchBatch
      1).1.searchBatch 1).1.searchBatch 1).1.searchBatch 1).1.top_level_n = 4 := by decide
  have h5d : ((((((BatchSearchState.new [⟨1, 0⟩, ⟨1, 1⟩, ⟨1, 2⟩, ⟨1, 3⟩] 3 0 2 1000).searchBatch
      1).1.searchBatch 1).1.searchBatch 1).1.searchBatch 1).1.searchBatch 1).1.top_level_done
      = 2 := by decide
  have h5n : ((((((BatchSearchState.new [⟨1, 0⟩, ⟨1, 1⟩, ⟨1, 2⟩, ⟨1, 3⟩] 3 0 2 1000).searchBatch
      1).1.searchBatch 1).1.searchBatch 1).1.searchBatch 1).1.searchBatch 1).1.top_level_n
      = 4 := by decide
  rw [h4f, h5f, h4d, h4n, h5d, h5n]
  norm_num

/-- C6: refuted as stated for the batch path.  For the degenerate
configuration `maxCount = 0` on the entry `7` with target `7`, `solve_one`
does return `NotFound` without searching (solver.rs line 65 checks
`max_count < 1`), but a batch session created with the same configuration
finishes its very first step with one result rather than zero:
`BatchSearchState::new` (batch.rs lines 68-78) checks only the empty-input,
suffix-sum and `min_count > n` conditions, not `max_count < 1`.  (The other
three degenerate configurations of the claim do finish batch sessions
immediately with zero results.) -/
theorem c6_batch_max_count_zero_still_emits_result :
    solveSubsetSum [⟨7, 0⟩] ⟨7, 0, 0, false⟩ = SolverResult.notFound ∧
      ((BatchSearchState.new [⟨7, 0⟩] 7 0 0 10).searchBatch 10).2.finished = true ∧
      ((BatchSearchState.new [⟨7, 0⟩] 7 0 0 10).searchBatch 10).2.total_found = 1 := by decide

/-- The scan loop leaves the static session fields untouched, only appends to
`results`, respects the result cap, and only sets `finished` together with
clearing the stack at the cap. -/
theorem scanFrame_spec (fuel n : Nat) (s : BatchSearchState) (pl csum rbv rneed i : Nat) :
    (scanFrame fuel n s pl csum rbv rneed i).1.max_results = s.max_results ∧
    (scanFrame fuel n s pl csum rbv rneed i).1.nodes_explored = s.nodes_explored ∧
    (scanFrame fuel n s pl csum rbv rneed i).1.top_level_n = s.top_level_n ∧
    s.results.length ≤ (scanFrame fuel n s pl csum rbv rneed i).1.results.length ∧
    (s.results.length < s.max_results →
      (scanFrame fuel n s pl csum rbv rneed i).1.results.length ≤ s.max_results) ∧
    ((scanFrame fuel n s pl csum rbv rneed i).1.finished = s.finished ∨
      ((scanFrame fuel n s pl csum rbv rneed i).1.finished = true ∧
        (scanFrame fuel n s pl csum rbv rneed i).1.stack = [] ∧
        (scanFrame fuel n s pl csum rbv rneed i).1.max_results ≤
          (scanFrame fuel n s pl csum rbv rneed i).1.results.length)) := by
  induction fuel generalizing s i with
  | zero =>
    exact ⟨rfl, rfl, rfl, Nat.le_refl _, fun h => Nat.le_of_lt h, Or.inl rfl⟩
  | succ fuel ih =>
    simp only [scanFrame]
    split
    · split
      · exact ⟨rfl, rfl, rfl, Nat.le_refl _, fun h => Nat.le_of_lt h, Or.inl rfl⟩
      · split
        · exact ⟨rfl, rfl, rfl, Nat.le_refl _, fun h => Nat.le_of_lt h, Or.inl rfl⟩
        · split
          · exact ⟨rfl, rfl, rfl, Nat.le_refl _, fun h => Nat.le_of_lt h, Or.inl rfl⟩
          · split
            · split
              · rename_i hsol hcap
                refine ⟨by simp, by simp, by simp, by simp, ?_, ?_⟩
                · intro hlt
                  simp only [List.length_append, List.length_singleton]
                  omega
                · exact Or.inr ⟨by simp, by simp, by simpa using hcap⟩
              · rename_i hsol hcap
                have h := ih
                  { s with
                    stack := setTopStart s.stack (i + 1)
                    path := s.path.take pl ++ [i]
                    results := s.results ++ [comboAt s pl i]
                    top_level_done := if pl = 0 then i + 1 else s.top_level_done }
                  (i + 1)
                rcases h with ⟨h1, h2, h3, h4, h5, h6⟩
                simp only [List.length_append, List.length_singleton] at h4 h5
                refine ⟨h1, h2, h3, by omega, ?_, h6⟩
                intro hlt
                exact h5 (by omega)
            · split
              · exact ⟨rfl, rfl, rfl, Nat.le_refl _, fun h => Nat.le_of_lt h, Or.inl rfl⟩
              · exact ⟨rfl, rfl, rfl, Nat.le_refl _, fun h => Nat.le_of_lt h, Or.inl rfl⟩
    · exact ⟨rfl, rfl, rfl, Nat.le_refl _, fun h => Nat.le_of_lt h, Or.inl rfl⟩

/-- One outer-loop iteration leaves the static session fields untouched, only
appends to `results`, respects the result cap, and only sets `finished`
together with clearing the stack at the cap. -/
theorem stepOnce_spec (s : BatchSearchState) :
    (stepOnce s).max_results = s.max_results ∧
    (stepOnce s).nodes_explored = s.nodes_explored ∧
    (stepOnce s).top_level_n = s.top_level_n ∧
    s.results.length ≤ (stepOnce s).results.length ∧
    (s.results.length < s.max_results → (stepOnce s).results.length ≤ s.max_results) ∧
    ((stepOnce s).finished = s.finished ∨
      ((stepOnce s).finished = true ∧ (stepOnce s).stack = [] ∧
        (stepOnce s).max_results ≤ (stepOnce s).results.length)) := by
  unfold stepOnce
  split
  · exact ⟨rfl, rfl, rfl, Nat.le_refl _, fun h => Nat.le_of_lt h, Or.inl rfl⟩
  · rename_i frame rest heq
    have h := scanFrame_spec (s.sorted.length - frame.start) s.sorted.length
      { s with path := s.path.take frame.path_len } frame.path_len frame.current_sum
      (s.target - frame.current_sum) (s.min_count - frame.path_len) frame.start
    rcases h with ⟨h1, h2, h3, h4, h5, h6⟩
    unfold popAdjust
    split
    · exact ⟨h1, h2, h3, h4, h5, h6⟩
    · split
      · refine ⟨by simpa using h1, by simpa using h2, by simpa using h3,
          by simpa using h4, by simpa using h5, ?_⟩
        rcases h6 with h6 | ⟨ha, hb, hc⟩
        · exact Or.inl (by simpa using h6)
        · exact Or.inr ⟨by simpa using ha, by simp [hb], by simpa using hc⟩
      · refine ⟨by simpa using h1, by simpa using h2, by simpa using h3,
          by simpa using h4, by simpa using h5, ?_⟩
        rcases h6 with h6 | ⟨ha, hb, hc⟩
        · exact Or.inl (by simpa using h6)
        · exact Or.inr ⟨by simpa using ha, by simp [hb], by simpa using hc⟩

/-- The outer loop does nothing when its guard is false. -/
theorem searchLoop_of_guard_false (b : Nat) (s : BatchSearchState)
    (h : ¬(s.stack ≠ [] ∧ s.results.length < s.max_results)) : searchLoop b s = s := by
  cases b with
  | zero => rfl
  | succ b => simp [searchLoop, h]

/-- Terminal states (empty stack, or result cap reached) absorb any budget. -/
theorem searchLoop_terminal (b : Nat) (s : BatchSearchState)
    (h : s.stack = [] ∨ s.max_results ≤ s.results.length) : searchLoop b s = s := by
  apply searchLoop_of_guard_false
  rcases h with h | h
  · simp [h]
  · intro hc
    exact absurd hc.2 (Nat.not_lt.mpr h)

/-- Splitting a budget into two consecutive loop runs is the same as one run
with the combined budget. -/
theorem searchLoop_add (a b : Nat) (s : BatchSearchState) :
    searchLoop (a + b) s = searchLoop b (searchLoop a s) := by
  induction a generalizing s with
  | zero => simp [searchLoop]
  | succ a ih =>
    rw [Nat.succ_add]
    by_cases h : s.stack ≠ [] ∧ s.results.length < s.max_results
    · simp only [searchLoop, if_pos h]
      exact ih _
    · rw [searchLoop_of_guard_false (a + b + 1) s h, searchLoop_of_guard_false (a + 1) s h,
        searchLoop_of_guard_false b s h]

/-- The outer loop leaves the static fields untouched, counts at most one node
per budget unit, only appends to `results`, and respects the result cap. -/
theorem searchLoop_spec (b : Nat) (s : BatchSearchState) :
    (searchLoop b s).max_results = s.max_results ∧
    (searchLoop b s).nodes_explored ≤ s.nodes_explored + b ∧
    (searchLoop b s).top_level_n = s.top_level_n ∧
    s.results.length ≤ (searchLoop b s).results.length ∧
    (s.results.length ≤ s.max_results → (searchLoop b s).results.length ≤ s.max_results) := by
  induction b generalizing s with
  | zero => exact ⟨rfl, Nat.le_add_right s.nodes_explored 0, rfl, Nat.le_refl _, fun h => h⟩
  | succ b ih =>
    simp only [searchLoop]
    split
    · rename_i hg
      rcases stepOnce_spec { s with nodes_explored := s.nodes_explored + 1 } with
        ⟨a1, a2, a3, a4, a5, _⟩
      rcases ih (stepOnce { s with nodes_explored := s.nodes_explored + 1 }) with
        ⟨b1, b2, b3, b4, b5⟩
      refine ⟨by rw [b1, a1], ?_, by rw [b3, a3], ?_, ?_⟩
      · rw [a2] at b2
        have hX : ({ s with nodes_explored := s.nodes_explored + 1 } :
            BatchSearchState).nodes_explored = s.nodes_explored + 1 := rfl
        rw [hX] at b2
        omega
      · exact Nat.le_trans a4 b4
      · intro hle
        have hlt : s.results.length < s.max_results := hg.2
        have hcap := a5 hlt
        have := b5 (by rw [a1]; exact hcap)
        rw [a1] at this
        exact this
    · exact ⟨rfl, by omega, rfl, Nat.le_refl _, fun h => h⟩

/-- The outer loop preserves the invariant that a finished session is
terminal (empty stack or result cap reached). -/
theorem searchLoop_finished_inv (b : Nat) (s : BatchSearchState)
    (hinv : s.finished = true → s.stack = [] ∨ s.max_results ≤ s.results.length) :
    (searchLoop b s).finished = true →
      (searchLoop b s).stack = [] ∨
        (searchLoop b s).max_results ≤ (searchLoop b s).results.length := by
  induction b generalizing s with
  | zero => exact hinv
  | succ b ih =>
    simp only [searchLoop]
    split
    · rename_i hg
      apply ih
      rcases (stepOnce_spec { s with nodes_explored := s.nodes_explored + 1 }).2.2.2.2.2 with
        hf | ⟨hf, hstk, hcap⟩
      · intro hfin
        rw [hf] at hfin
        simp only at hfin
        rcases hinv hfin with hstk | hcap
        · exact absurd hstk hg.1
        · exact absurd hg.2 (Nat.not_lt.mpr hcap)
      · intro _
        exact Or.inl hstk
    · exact hinv

/-- `markFin` only touches the `finished` flag. -/
theorem markFin_fields (t : BatchSearchState) :
    (markFin t).results = t.results ∧ (markFin t).stack = t.stack ∧
    (markFin t).max_results = t.max_results ∧
    (markFin t).nodes_explored = t.nodes_explored ∧
    (markFin t).top_level_n = t.top_level_n ∧
    (markFin t).top_level_done = t.top_level_done ∧
    (markFin t).path = t.path ∧ (markFin t).sorted = t.sorted := by
  unfold markFin
  split <;> exact ⟨rfl, rfl, rfl, rfl, rfl, rfl, rfl, rfl⟩

/-- When `markFin` reports the session finished, the underlying state is
terminal or was already marked finished. -/
theorem markFin_finished (t : BatchSearchState) :
    (markFin t).finished = true ↔
      t.finished = true ∨ t.stack = [] ∨ t.max_results ≤ t.results.length := by
  unfold markFin
  split
  · rename_i hc
    simp [hc]
  · rename_i hc
    simp only [not_or] at hc
    constructor
    · intro h
      exact Or.inl h
    · intro h
      rcases h with h | h | h
      · exact h
      · exact absurd h hc.1
      · exact absurd h hc.2

/-- The state returned by `search_batch` is the loop result with the
post-loop finished flag. -/
theorem searchBatch_fst (s : BatchSearchState) (b : Nat) :
    (s.searchBatch b).1 = markFin (searchLoop b s) := rfl

/-- Running the loop on a freshly `markFin`-ed state gives the same final
marked state as running it on the unmarked state. -/
theorem markFin_searchLoop (b : Nat) (t : BatchSearchState) :
    markFin (searchLoop b (markFin t)) = markFin (searchLoop b t) := by
  by_cases hc : t.stack = [] ∨ t.max_results ≤ t.results.length
  · have h1 : markFin t = { t with finished := true } := if_pos hc
    have h2 : searchLoop b { t with finished := true } = { t with finished := true } :=
      searchLoop_terminal b _ (by simpa using hc)
    have h3 : searchLoop b t = t := searchLoop_terminal b t hc
    rw [h1, h2, h3]
    unfold markFin
    rw [if_pos (by simpa using hc), if_pos hc]
  · have h1 : markFin t = t := if_neg hc
    rw [h1]

/-- Driving a session that has just been through `search_batch` with any list
of further budgets lands in the marked state of one combined loop run. -/
theorem runBudgets_markFin (bs : List Nat) (t : BatchSearchState) :
    runBudgets (markFin t) bs = markFin (searchLoop bs.sum t) := by
  induction bs generalizing t with
  | nil => simp [runBudgets, searchLoop]
  | cons b bs ih =>
    have h1 : runBudgets (markFin t) (b :: bs) =
        runBudgets (markFin (searchLoop b (markFin t))) bs := rfl
    rw [h1, ih (searchLoop b (markFin t)), ← searchLoop_add, markFin_searchLoop,
      List.sum_cons]

/-- A nonempty chunk schedule is one combined loop run plus the final mark. -/
theorem runBudgets_cons (s : BatchSearchState) (b : Nat) (bs : List Nat) :
    runBudgets s (b :: bs) = markFin (searchLoop (b + bs.sum) s) := by
  have h1 : runBudgets s (b :: bs) = runBudgets (markFin (searchLoop b s)) bs := rfl
  rw [h1, runBudgets_markFin, ← searchLoop_add]

/-- A freshly created session that is already finished has an empty stack. -/
theorem new_finished_stack (entries : List NumberEntry)
    (target min_count max_count max_results : Nat)
    (h : (BatchSearchState.new entries target min_count max_count max_results).finished
      = true) :
    (BatchSearchState.new entries target min_count max_count max_results).stack = [] := by
  simp only [BatchSearchState.new] at h ⊢
  simp only [decide_eq_true_eq] at h
  rw [if_pos h]

/-- A freshly created session has no results. -/
theorem new_results (entries : List NumberEntry)
    (target min_count max_count max_results : Nat) :
    (BatchSearchState.new entries target min_count max_count max_results).results = [] :=
  rfl

/-- A freshly created session satisfies the finished-is-terminal invariant. -/
theorem new_finished_inv (entries : List NumberEntry)
    (target min_count max_count max_results : Nat) :
    (BatchSearchState.new entries target min_count max_count max_results).finished = true →
      (BatchSearchState.new entries target min_count max_count max_results).stack = [] ∨
        (BatchSearchState.new entries target min_count max_count
          max_results).max_results ≤
          (BatchSearchState.new entries target min_count max_count
            max_results).results.length :=
  fun h => Or.inl (new_finished_stack _ _ _ _ _ h)

/-- Re-assigning `finished := true` on an already finished session is the
identity. -/
theorem finished_true_update (s : BatchSearchState) (h : s.finished = true) :
    ({ s with finished := true } : BatchSearchState) = s := by
  cases s
  simp only at h
  rw [h]

/-- Every reachable session keeps its result list within the cap. -/
theorem reachable_results_cap (s : BatchSearchState) (hr : Reachable s) :
    s.results.length ≤ s.max_results := by
  induction hr with
  | init entries target mn mx mr => simp [new_results]
  | step t b ht ih =>
    rw [searchBatch_fst]
    rcases markFin_fields (searchLoop b t) with ⟨m1, _, m3, _⟩
    rw [m1, m3]
    rcases searchLoop_spec b t with ⟨l1, _, _, _, l5⟩
    rw [l1]
    exact l5 ih

/-- Every reachable session satisfies the finished-is-terminal invariant. -/
theorem reachable_finished_inv (s : BatchSearchState) (hr : Reachable s) :
    s.finished = true → s.stack = [] ∨ s.max_results ≤ s.results.length := by
  induction hr with
  | init entries target mn mx mr => exact new_finished_inv _ _ _ _ _
  | step t b ht ih =>
    rw [searchBatch_fst]
    intro hf
    rcases markFin_fields (searchLoop b t) with ⟨m1, m2, m3, _⟩
    rw [m1, m2, m3]
    rcases (markFin_finished (searchLoop b t)).mp hf with h | h | h
    · exact searchLoop_finished_inv b t ih h
    · exact Or.inl h
    · exact Or.inr h

/-- `search_batch` never changes the session's result cap. -/
theorem searchBatch_max_results (s : BatchSearchState) (b : Nat) :
    (s.searchBatch b).1.max_results = s.max_results := by
  rw [searchBatch_fst, (markFin_fields _).2.2.1, (searchLoop_spec b s).1]

/-- The `total_found` field of a batch result is the returned session's
result count. -/
theorem searchBatch_total (s : BatchSearchState) (b : Nat) :
    (s.searchBatch b).2.total_found = (s.searchBatch b).1.results.length := rfl

/-- C4: confirmed.  Across successive `search_batch` calls on one reachable
session, the returned `total_found` is non-decreasing and never exceeds the
`max_results` cap fixed at session creation (results are only ever appended,
and the loop guard together with the per-record cap check keeps the list
within the cap). -/
theorem c4_total_found_monotone_and_capped (s : BatchSearchState) (hr : Reachable s)
    (b1 b2 : Nat) :
    (s.searchBatch b1).2.total_found ≤
        ((s.searchBatch b1).1.searchBatch b2).2.total_found ∧
      (s.searchBatch b1).2.total_found ≤ s.max_results ∧
      ((s.searchBatch b1).1.searchBatch b2).2.total_found ≤ s.max_results := by
  have hs1 : Reachable (s.searchBatch b1).1 := Reachable.step s b1 hr
  have hs2 : Reachable ((s.searchBatch b1).1.searchBatch b2).1 :=
    Reachable.step _ b2 hs1
  refine ⟨?_, ?_, ?_⟩
  · rw [searchBatch_total, searchBatch_total, searchBatch_fst ((s.searchBatch b1).1) b2,
      (markFin_fields _).1]
    exact (searchLoop_spec b2 _).2.2.2.1
  · rw [searchBatch_total]
    have h := reachable_results_cap _ hs1
    rwa [searchBatch_max_results] at h
  · rw [searchBatch_total]
    have h := reachable_results_cap _ hs2
    rwa [searchBatch_max_results, searchBatch_max_results] at h

/-- Witness for C4 on a concrete session. -/
theorem c4_witness :
    ((BatchSearchState.new [⟨1, 0⟩, ⟨2, 1⟩] 3 1 2 10).searchBatch 2).2.total_found ≤
        (((BatchSearchState.new [⟨1, 0⟩, ⟨2, 1⟩] 3 1 2 10).searchBatch 2).1.searchBatch
          3).2.total_found ∧
      ((BatchSearchState.new [⟨1, 0⟩, ⟨2, 1⟩] 3 1 2 10).searchBatch 2).2.total_found ≤
        (BatchSearchState.new [⟨1, 0⟩, ⟨2, 1⟩] 3 1 2 10).max_results ∧
      (((BatchSearchState.new [⟨1, 0⟩, ⟨2, 1⟩] 3 1 2 10).searchBatch 2).1.searchBatch
          3).2.total_found ≤
        (BatchSearchState.new [⟨1, 0⟩, ⟨2, 1⟩] 3 1 2 10).max_results :=
  c4_total_found_monotone_and_capped _ (Reachable.init [⟨1, 0⟩, ⟨2, 1⟩] 3 1 2 10) 2 3

/-- C5: confirmed.  A single `search_batch` call with budget `node_budget`
advances the session's `nodes_explored` counter by at most `node_budget`, for
every session state and every budget: each outer-loop iteration burns exactly
one budget unit and counts exactly one node. -/
theorem c5_nodes_explored_bounded (s : BatchSearchState) (b : Nat) :
    (s.searchBatch b).2.nodes_explored = (s.searchBatch b).1.nodes_explored ∧
      (s.searchBatch b).1.nodes_explored ≤ s.nodes_explored + b := by
  refine ⟨rfl, ?_⟩
  rw [searchBatch_fst, (markFin_fields _).2.2.2.1]
  exact (searchLoop_spec b s).2.1

/-- C10: confirmed.  Once a reachable session is finished, any further
`search_batch` call with any budget leaves the entire session state unchanged
and returns no new results, the same `total_found`, `finished = true` and
progress exactly `1`. -/
theorem c10_finished_step_is_noop (s : BatchSearchState) (hr : Reachable s)
    (hf : s.finished = true) (b : Nat) :
    (s.searchBatch b).1 = s ∧
      (s.searchBatch b).2 =
        { new_results := [], total_found := s.results.length,
          nodes_explored := s.nodes_explored, finished := true, progress := 1 } := by
  have hterm := reachable_finished_inv s hr hf
  have hloop : searchLoop b s = s := searchLoop_terminal b s hterm
  have hmark : markFin s = s := by
    unfold markFin
    rw [if_pos hterm]
    exact finished_true_update s hf
  have hpair : s.searchBatch b =
      (markFin (searchLoop b s),
       { new_results := (markFin (searchLoop b s)).results.drop s.results.length
         total_found := (markFin (searchLoop b s)).results.length
         nodes_explored := (markFin (searchLoop b s)).nodes_explored
         finished := (markFin (searchLoop b s)).finished
         progress := if (markFin (searchLoop b s)).finished then 1
           else min (if 0 < (markFin (searchLoop b s)).top_level_n then
               ((markFin (searchLoop b s)).top_level_done : ℚ) /
                 ((markFin (searchLoop b s)).top_level_n : ℚ)
             else 1) (999 / 1000) }) := rfl
  rw [hloop, hmark] at hpair
  rw [hpair]
  refine ⟨rfl, ?_⟩
  simp [List.drop_length, hf]

/-- Witness for C10 on a concrete finished session (empty input finishes at
creation; the first step is already a no-op). -/
theorem c10_witness :
    ((BatchSearchState.new [] 10 1 5 100).searchBatch 7).1 =
        BatchSearchState.new [] 10 1 5 100 ∧
      ((BatchSearchState.new [] 10 1 5 100).searchBatch 7).2 =
        { new_results := [],
          total_found := (BatchSearchState.new [] 10 1 5 100).results.length,
          nodes_explored := (BatchSearchState.new [] 10 1 5 100).nodes_explored,
          finished := true, progress := 1 } :=
  c10_finished_step_is_noop _ (Reachable.init [] 10 1 5 100) (by decide) 7

/-- C7: confirmed.  Driving one freshly created session to completion with any
schedule of (positive) budgets discovers exactly as many combinations as
driving a session with the same parameters to completion in one call: the
chunk boundaries never change the per-iteration transition, and terminal
states absorb leftover budget. -/
theorem c7_chunking_equivalent (entries : List NumberEntry)
    (target mn mx mr : Nat) (bs : List Nat) (B : Nat)
    (hpos : ∀ b ∈ bs, 0 < b)
    (h1 : (runBudgets (BatchSearchState.new entries target mn mx mr) bs).finished = true)
    (h2 : ((BatchSearchState.new entries target mn mx mr).searchBatch B).1.finished
      = true) :
    (runBudgets (BatchSearchState.new entries target mn mx mr) bs).results.length =
      ((BatchSearchState.new entries target mn mx mr).searchBatch B).1.results.length := by
  have hterm : ∀ n : Nat,
      (markFin (searchLoop n (BatchSearchState.new entries target mn mx mr))).finished
        = true →
      (searchLoop n (BatchSearchState.new entries target mn mx mr)).stack = [] ∨
        (searchLoop n (BatchSearchState.new entries target mn mx mr)).max_results ≤
          (searchLoop n (BatchSearchState.new entries target mn mx mr)).results.length := by
    intro n hf
    rcases (markFin_finished _).mp hf with h | h | h
    · exact searchLoop_finished_inv n _ (new_finished_inv _ _ _ _ _) h
    · exact Or.inl h
    · exact Or.inr h
  have habs : ∀ m n : Nat, n ≤ m →
      ((searchLoop n (BatchSearchState.new entries target mn mx mr)).stack = [] ∨
        (searchLoop n (BatchSearchState.new entries target mn mx mr)).max_results ≤
          (searchLoop n (BatchSearchState.new entries target mn mx mr)).results.length) →
      searchLoop m (BatchSearchState.new entries target mn mx mr) =
        searchLoop n (BatchSearchState.new entries target mn mx mr) := by
    intro m n hmn ht
    have hm : m = n + (m - n) := by omega
    rw [hm, searchLoop_add, searchLoop_terminal _ _ ht]
  have hEq : ∀ m n : Nat,
      (markFin (searchLoop m (BatchSearchState.new entries target mn mx mr))).finished
        = true →
      (markFin (searchLoop n (BatchSearchState.new entries target mn mx mr))).finished
        = true →
      (searchLoop m (BatchSearchState.new entries target mn mx mr)).results.length =
        (searchLoop n (BatchSearchState.new entries target mn mx mr)).results.length := by
    intro m n hm hn
    rcases Nat.le_total m n with hle | hle
    · rw [habs n m hle (hterm m hm)]
    · rw [habs m n hle (hterm n hn)]
  cases bs with
  | nil =>
    have hs0 : runBudgets (BatchSearchState.new entries target mn mx mr) [] =
        BatchSearchState.new entries target mn mx mr := rfl
    rw [hs0] at h1 ⊢
    have hstk := new_finished_stack entries target mn mx mr h1
    have hTB : searchLoop B (BatchSearchState.new entries target mn mx mr) =
        BatchSearchState.new entries target mn mx mr :=
      searchLoop_terminal B _ (Or.inl hstk)
    rw [searchBatch_fst, (markFin_fields _).1, hTB]
  | cons b bs =>
    rw [runBudgets_cons] at h1 ⊢
    rw [searchBatch_fst] at h2 ⊢
    rw [(markFin_fields _).1, (markFin_fields _).1]
    exact hEq (b + bs.sum) B h1 h2

/-- Value sums distribute over append. -/
theorem valueSum_append (a b : List NumberEntry) :
    valueSum (a ++ b) = valueSum a + valueSum b := by
  simp [valueSum]

/-- A sub-selection of entries sums to at most the whole list. -/
theorem valueSum_le_of_sublist {c l : List NumberEntry} (h : c.Sublist l) :
    valueSum c ≤ valueSum l :=
  List.Sublist.sum_le_sum (h.map (fun e => e.value)) (fun a _ => Nat.zero_le a)

/-- The suffix table has one entry per index plus the trailing zero. -/
theorem buildSuffix_length (l : List NumberEntry) :
    (buildSuffix l).length = l.length + 1 := by
  induction l with
  | nil => rfl
  | cons e rest ih => simp [buildSuffix, ih]

/-- The head of the suffix table is the saturating sum of the whole list. -/
theorem buildSuffix_headD (l : List NumberEntry) :
    (buildSuffix l).headD 0 = min (valueSum l) U64MAX := by
  induction l with
  | nil => simp [buildSuffix, valueSum]
  | cons e rest ih =>
    simp only [buildSuffix, List.headD_cons, ih, satAdd, valueSum, List.map_cons,
      List.sum_cons]
    omega

/-- Entry `i` of the suffix table is the saturating sum of `l.drop i`:
saturating addition clamps exactly at `U64MAX`. -/
theorem buildSuffix_getD (l : List NumberEntry) (i : Nat) (h : i ≤ l.length) :
    (buildSuffix l).getD i 0 = min (valueSum (l.drop i)) U64MAX := by
  induction l generalizing i with
  | nil =>
    have hi : i = 0 := by simpa using h
    subst hi
    simp [buildSuffix, valueSum]
  | cons e rest ih =>
    cases i with
    | zero =>
      have hh := buildSuffix_headD (e :: rest)
      simpa [buildSuffix, List.headD_cons] using hh
    | succ i =>
      simp only [buildSuffix, List.getD_cons_succ, List.drop_succ_cons]
      exact ih i (by simpa using h)

/-- Every entry of the suffix table fits in a u64. -/
theorem buildSuffix_getD_le (l : List NumberEntry) (i : Nat) :
    (buildSuffix l).getD i 0 ≤ U64MAX := by
  by_cases h : i ≤ l.length
  · rw [buildSuffix_getD l i h]
    omega
  · rw [List.getD_eq_getElem?_getD, List.getElem?_eq_none, Option.getD_none]
    · exact Nat.zero_le _
    · rw [buildSuffix_length]
      omega

/-- Witness for C7 on a concrete instance (five entries, three solutions,
driven with budget chunks of 3 versus one call with budget 100). -/
theorem c7_witness :
    (runBudgets
        (BatchSearchState.new [⟨1, 0⟩, ⟨2, 1⟩, ⟨3, 2⟩, ⟨4, 3⟩, ⟨5, 4⟩] 5 1 5 100)
        [3, 3, 3, 3, 3]).results.length =
      ((BatchSearchState.new [⟨1, 0⟩, ⟨2, 1⟩, ⟨3, 2⟩, ⟨4, 3⟩, ⟨5, 4⟩] 5 1 5
          100).searchBatch 100).1.results.length :=
  c7_chunking_equivalent [⟨1, 0⟩, ⟨2, 1⟩, ⟨3, 2⟩, ⟨4, 3⟩, ⟨5, 4⟩] 5 1 5 100
    [3, 3, 3, 3, 3] 100 (by decide) (by decide) (by decide)

/-- Value sum of a cons. -/
theorem valueSum_cons (e : NumberEntry) (l : List NumberEntry) :
    valueSum (e :: l) = e.value + valueSum l := by
  simp [valueSum]

/-- A mask always selects a sub-selection of the half. -/
theorem maskSelect_sublist (l : List NumberEntry) (mask : Nat) :
    (maskSelect l mask).Sublist l := by
  induction l generalizing mask with
  | nil => simp [maskSelect]
  | cons e rest ih =>
    simp only [maskSelect]
    split
    · exact List.Sublist.cons₂ e (ih (mask / 2))
    · exact List.Sublist.cons e (ih (mask / 2))

/-- Every sub-selection of the half is selected by some in-range mask. -/
theorem exists_mask_of_sublist {c l : List NumberEntry} (h : c.Sublist l) :
    ∃ mask, mask < 2 ^ l.length ∧ maskSelect l mask = c := by
  induction h with
  | slnil => exact ⟨0, by simp, rfl⟩
  | cons a h ih =>
    obtain ⟨m, hm, hsel⟩ := ih
    have h1 : 2 * m % 2 = 0 := by omega
    have h2 : 2 * m / 2 = m := by omega
    refine ⟨2 * m, ?_, ?_⟩
    · simp only [List.length_cons, Nat.pow_succ]
      omega
    · simp [maskSelect, h1, h2, hsel]
  | cons₂ a h ih =>
    obtain ⟨m, hm, hsel⟩ := ih
    have h1 : (2 * m + 1) % 2 = 1 := by omega
    have h2 : (2 * m + 1) / 2 = m := by omega
    refine ⟨2 * m + 1, ?_, ?_⟩
    · simp only [List.length_cons, Nat.pow_succ]
      omega
    · simp [maskSelect, h1, h2, hsel]

/-- Characterisation of the per-mask scan in the wrap-free regime: when every
value is at most `target` and `2 * target` fits in a u64, each addition starts
from a running sum at most `target` and therefore never leaves u64 range, so
the scan aborts exactly when the selected subset overshoots the target, and
otherwise reports the selected subset's exact sum and size (with nonnegative
values the running partial sums are monotone, so the early break fires exactly
on overshooting totals). -/
theorem halfScan_eq (target : Nat) (htar2 : 2 * target ≤ U64MAX)
    (l : List NumberEntry) :
    ∀ mask sum count, (∀ e ∈ l, e.value ≤ target) → sum ≤ target →
      halfScan target l mask sum count =
        if target < sum + valueSum (maskSelect l mask) then none
        else some (sum + valueSum (maskSelect l mask),
          count + (maskSelect l mask).length) := by
  induction l with
  | nil =>
    intro mask sum count hv h
    simp [halfScan, maskSelect, valueSum, Nat.not_lt.mpr h]
  | cons e rest ih =>
    intro mask sum count hv h
    have hev : e.value ≤ target := hv e (List.mem_cons_self e rest)
    have hrest : ∀ x ∈ rest, x.value ≤ target := fun x hx =>
      hv x (List.mem_cons_of_mem e hx)
    have hmod : (sum + e.value) % 2 ^ 64 = sum + e.value := by
      apply Nat.mod_eq_of_lt
      have hU : U64MAX = 18446744073709551615 := by norm_num [U64MAX]
      have h64 : (2 : Nat) ^ 64 = 18446744073709551616 := by norm_num
      omega
    simp only [halfScan, maskSelect, hmod]
    split
    · split
      · rename_i hov
        have hcond : target < sum + valueSum (e :: maskSelect rest (mask / 2)) := by
          rw [valueSum_cons]
          omega
        rw [if_pos hcond]
      · rename_i hov
        rw [ih (mask / 2) (sum + e.value) (count + 1) hrest (by omega)]
        simp only [valueSum_cons, List.length_cons]
        rw [show sum + e.value + valueSum (maskSelect rest (mask / 2)) =
            sum + (e.value + valueSum (maskSelect rest (mask / 2))) from by omega,
          show count + 1 + (maskSelect rest (mask / 2)).length =
            count + ((maskSelect rest (mask / 2)).length + 1) from by omega]
    · exact ih (mask / 2) sum count hrest h

/-- C9: counterexample to the overflow part of the claim.  The claim asserts
that no arithmetic in the core ever overflows, but the meet-in-the-middle
half-enumeration (solver.rs lines 141-158 / 165-181) accumulates subset sums
with a plain u64 `sum += value`, and under the caller precondition (every
value positive and at most the target) that addition can leave u64 range: at
target `2^64 - 2` with values `{2^63, 2^64 - 2}`, selecting both gives a true
subset sum of `2^63 + (2^64 - 2) > u64::MAX`, and the scan's running sum
wraps around to `2^63 - 2` instead (a panic in a debug build).  Only the
suffix-table construction uses `saturating_add`. -/
theorem c9_mitm_accumulation_overflows :
    halfScan (2 ^ 64 - 2) [⟨2 ^ 63, 0⟩, ⟨2 ^ 64 - 2, 1⟩] 3 0 0 =
        some (2 ^ 63 - 2, 2) ∧
      valueSum (maskSelect [⟨2 ^ 63, 0⟩, ⟨2 ^ 64 - 2, 1⟩] 3) =
        2 ^ 63 + (2 ^ 64 - 2) ∧
      U64MAX < 2 ^ 63 + (2 ^ 64 - 2) ∧
      ∀ e ∈ [(⟨2 ^ 63, 0⟩ : NumberEntry), ⟨2 ^ 64 - 2, 1⟩],
        0 < e.value ∧ e.value ≤ 2 ^ 64 - 2 := by
  refine ⟨by decide, by decide, by decide, by decide⟩

/-- C9: the claim amended as the counterexample forces.  The suffix-sum prune
is safe under saturation: whenever the stored (saturating) suffix sum at
index `i` is below the still needed amount (which is at most
`target ≤ U64MAX`), no sub-selection of `sorted[i..]` can sum to that amount,
so the prune at solver.rs line 274 and batch.rs line 140 never discards a
combination that sums exactly to the target, and every stored suffix sum
stays within u64 range (the saturating addition never overflows).  The
meet-in-the-middle u64 accumulation, by contrast, is only guaranteed exact —
every half-scan result equal to the true subset sum, which then stays within
u64 range — under the additional bound `2 * target ≤ u64::MAX`; without that
bound it can wrap, as the counterexample shows. -/
theorem c9_saturating_suffix_no_false_prune (sorted : List NumberEntry)
    (i needed : Nat) (c : List NumberEntry)
    (target : Nat) (l : List NumberEntry) (mask sum' count' : Nat)
    (hN : needed ≤ U64MAX)
    (hprune : (buildSuffix sorted).getD i 0 < needed)
    (hc : c.Sublist (sorted.drop i))
    (htar2 : 2 * target ≤ U64MAX)
    (hv : ∀ e ∈ l, e.value ≤ target)
    (hscan : halfScan target l mask 0 0 = some (sum', count')) :
    valueSum c ≠ needed ∧ (buildSuffix sorted).getD i 0 ≤ U64MAX ∧
      sum' = valueSum (maskSelect l mask) ∧ sum' ≤ target := by
  have hpair : sum' = valueSum (maskSelect l mask) ∧ sum' ≤ target := by
    rw [halfScan_eq target htar2 l mask 0 0 hv (Nat.zero_le _)] at hscan
    split at hscan
    · exact absurd hscan (by simp)
    · rename_i hcond
      injection hscan with h
      rw [Prod.mk.injEq] at h
      obtain ⟨h1, h2⟩ := h
      rw [Nat.not_lt] at hcond
      omega
  refine ⟨?_, buildSuffix_getD_le sorted i, hpair.1, hpair.2⟩
  intro hsum
  by_cases h : i ≤ sorted.length
  · rw [buildSuffix_getD sorted i h] at hprune
    have hle : valueSum c ≤ valueSum (sorted.drop i) := valueSum_le_of_sublist hc
    omega
  · have hdrop : sorted.drop i = [] := List.drop_eq_nil_of_le (by omega)
    rw [hdrop, List.sublist_nil] at hc
    subst hc
    simp [valueSum] at hsum
    rw [← hsum] at hprune
    omega

/-- Witness for C9 on a concrete prune situation together with a concrete
wrap-free half scan. -/
theorem c9_witness :
    valueSum [(⟨2, 0⟩ : NumberEntry)] ≠ 6 ∧
      (buildSuffix [⟨2, 0⟩, ⟨3, 1⟩]).getD 0 0 ≤ U64MAX ∧
      5 = valueSum (maskSelect [⟨2, 0⟩, ⟨3, 1⟩] 3) ∧ 5 ≤ 6 :=
  c9_saturating_suffix_no_false_prune [⟨2, 0⟩, ⟨3, 1⟩] 0 6 [⟨2, 0⟩]
    6 [⟨2, 0⟩, ⟨3, 1⟩] 3 5 2 (by decide) (by decide) (by decide) (by decide)
    (by decide) (by decide)

/-- Membership in a left bucket: exactly the in-range masks whose scan
survives with the needed sum and an admissible count. -/
theorem mem_leftCandidates {left : List NumberEntry} {target maxc needed count mask : Nat} :
    (count, mask) ∈ leftCandidates left target maxc needed ↔
      mask < 2 ^ left.length ∧ halfScan target left mask 0 0 = some (needed, count) ∧
        count ≤ maxc := by
  simp only [leftCandidates, List.mem_filterMap, List.mem_range]
  constructor
  · rintro ⟨m, hm, hf⟩
    cases hscan : halfScan target left m 0 0 with
    | none =>
      rw [hscan] at hf
      exact absurd hf (by simp)
    | some p =>
      obtain ⟨sum', count'⟩ := p
      rw [hscan] at hf
      simp only at hf
      split at hf
      · rename_i hcond
        simp only [Option.some.injEq, Prod.mk.injEq] at hf
        obtain ⟨rfl, rfl⟩ := hf
        exact ⟨hm, by rw [hscan, hcond.2], hcond.1⟩
      · exact absurd hf (by simp)
  · rintro ⟨hm, hscan, hc⟩
    refine ⟨mask, hm, ?_⟩
    rw [hscan]
    simp [hc]

/-- If some member of the list maps to `some`, so does `findSome?`. -/
theorem findSome?_isSome_of_mem {α β : Type} {l : List α} {f : α → Option β} {a : α}
    (ha : a ∈ l) (hf : (f a).isSome = true) : (l.findSome? f).isSome = true := by
  induction l with
  | nil => cases ha
  | cons b l ih =>
    cases hfb : f b with
    | some v => simp [List.findSome?_cons, hfb]
    | none =>
      rcases List.mem_cons.mp ha with rfl | ha2
      · rw [hfb] at hf
        exact absurd hf (by simp)
      · simpa [List.findSome?_cons, hfb] using ih ha2

/-- `getD` with the default entry agrees with indexing inside the bounds. -/
theorem getD_eq_getElem_of_lt {α : Type} [Inhabited α] (l : List α) (i : Nat)
    (h : i < l.length) : l.getD i default = l[i] := by
  rw [List.getD_eq_getElem?_getD, List.getElem?_eq_getElem h]
  rfl

/-- Dropping `i` exposes element `i` as the head. -/
theorem drop_eq_getD_cons {α : Type} [Inhabited α] (l : List α) (i : Nat)
    (h : i < l.length) : l.drop i = l.getD i default :: l.drop (i + 1) := by
  rw [getD_eq_getElem_of_lt l i h]
  exact List.drop_eq_getElem_cons h

/-- In a value-sorted list, element `i` has the smallest value in the tail
starting at `i`. -/
theorem sorted_drop_head_le {l : List NumberEntry} (hs : List.Sorted valueLE l)
    (i : Nat) (h : i < l.length) {e : NumberEntry} (he : e ∈ l.drop i) :
    (l.getD i default).value ≤ e.value := by
  have hs2 : List.Sorted valueLE (l.drop i) := hs.drop
  rw [drop_eq_getD_cons l i h] at hs2 he
  rw [List.sorted_cons] at hs2
  rcases List.mem_cons.mp he with rfl | he2
  · exact Nat.le_refl _
  · exact hs2.1 e he2

/-- The meet-in-the-middle enumerator succeeds exactly on feasible instances,
provided cancellation is never set and the u64 accumulation cannot wrap:
every value is at most the target (the caller precondition) and `2 * target`
fits in a u64.  Without the wrap-freedom bound the equivalence fails, see the
counterexample to claim C8. -/
theorem meetInTheMiddle_isSome_iff (data : PreparedData) (cfg : SolverConfig)
    (hcanc : cfg.cancelled = false)
    (hvals : ∀ e ∈ data.sorted, e.value ≤ cfg.target)
    (htar2 : 2 * cfg.target ≤ U64MAX) :
    (meetInTheMiddle data cfg).isSome = true ↔ Feasible data.sorted cfg := by
  have hvL : ∀ e ∈ data.sorted.take (data.sorted.length / 2), e.value ≤ cfg.target :=
    fun e he => hvals e (List.take_subset _ _ he)
  have hvR : ∀ e ∈ data.sorted.drop (data.sorted.length / 2), e.value ≤ cfg.target :=
    fun e he => hvals e (List.drop_subset _ _ he)
  unfold meetInTheMiddle
  rw [hcanc]
  simp only [Bool.false_eq_true, if_false]
  constructor
  · intro hsome
    rw [Option.isSome_iff_exists] at hsome
    obtain ⟨r, hr⟩ := hsome
    obtain ⟨rmask, hrmem, hrf⟩ := List.exists_of_findSome?_eq_some hr
    cases hscan : halfScan cfg.target (data.sorted.drop (data.sorted.length / 2))
        rmask 0 0 with
    | none =>
      rw [hscan] at hrf
      exact absurd hrf (by simp)
    | some p =>
      obtain ⟨rsum, rcount⟩ := p
      rw [hscan] at hrf
      simp only at hrf
      obtain ⟨lc, hlcmem, hlcf⟩ := List.exists_of_findSome?_eq_some hrf
      obtain ⟨lcount, lmask⟩ := lc
      by_cases hcond : cfg.min_count ≤ lcount + rcount ∧ lcount + rcount ≤ cfg.max_count
      · rw [mem_leftCandidates] at hlcmem
        obtain ⟨hlm, hlscan, hlmax⟩ := hlcmem
        rw [halfScan_eq cfg.target htar2 _ rmask 0 0 hvR (Nat.zero_le _)] at hscan
        rw [halfScan_eq cfg.target htar2 _ lmask 0 0 hvL (Nat.zero_le _)] at hlscan
        split at hscan
        · exact absurd hscan (by simp)
        · rename_i hrle
          simp only [Option.some.injEq, Prod.mk.injEq, Nat.zero_add] at hscan
          obtain ⟨hrsum, hrcount⟩ := hscan
          split at hlscan
          · exact absurd hlscan (by simp)
          · rename_i hlle
            simp only [Option.some.injEq, Prod.mk.injEq, Nat.zero_add] at hlscan
            obtain ⟨hlsum, hlcount⟩ := hlscan
            refine ⟨maskSelect (data.sorted.take (data.sorted.length / 2)) lmask ++
              maskSelect (data.sorted.drop (data.sorted.length / 2)) rmask, ?_, ?_, ?_, ?_⟩
            · have hsub := List.Sublist.append
                (maskSelect_sublist (data.sorted.take (data.sorted.length / 2)) lmask)
                (maskSelect_sublist (data.sorted.drop (data.sorted.length / 2)) rmask)
              rwa [List.take_append_drop] at hsub
            · rw [valueSum_append, hlsum, hrsum]
              omega
            · rw [List.length_append, hlcount, hrcount]
              exact hcond.1
            · rw [List.length_append, hlcount, hrcount]
              exact hcond.2
      · rw [if_neg hcond] at hlcf
        exact absurd hlcf (by simp)
  · intro hfeas
    obtain ⟨c, hsub, hsum, hmin, hmax⟩ := hfeas
    rw [← List.take_append_drop (data.sorted.length / 2) data.sorted,
      List.sublist_append_iff] at hsub
    obtain ⟨c₁, c₂, rfl, h1, h2⟩ := hsub
    obtain ⟨lmask, hlm, hlsel⟩ := exists_mask_of_sublist h1
    obtain ⟨rmask, hrm, hrsel⟩ := exists_mask_of_sublist h2
    rw [valueSum_append] at hsum
    rw [List.length_append] at hmin hmax
    apply findSome?_isSome_of_mem (List.mem_range.mpr hrm)
    rw [halfScan_eq cfg.target htar2 _ rmask 0 0 hvR (Nat.zero_le _), hrsel,
      if_neg (by simp only [Nat.zero_add]; omega)]
    simp only [Nat.zero_add]
    apply findSome?_isSome_of_mem (a := (c₁.length, lmask))
    · rw [mem_leftCandidates]
      refine ⟨hlm, ?_, by omega⟩
      rw [halfScan_eq cfg.target htar2 _ lmask 0 0 hvL (Nat.zero_le _), hlsel,
        if_neg (by simp only [Nat.zero_add]; omega)]
      simp only [Option.some.injEq, Prod.mk.injEq, Nat.zero_add]
      exact ⟨by omega, trivial⟩
    · rw [if_pos (by constructor <;> omega)]
      rfl

/-- Main analysis of `bb_dfs_first` with cancellation never set, by the mutual
functional induction over the node/loop recursion: the search never reports
cancellation, every `Found` node extends to a full solution (soundness), and
every node that extends to a full solution is reported `Found` (completeness;
this is where the three prunes are justified from sortedness, the saturating
suffix table, and the count window). -/
theorem bb_main (data : PreparedData) (cfg : SolverConfig)
    (hsorted : List.Sorted valueLE data.sorted)
    (hsuffix : data.suffix_sum = buildSuffix data.sorted)
    (htar : cfg.target ≤ U64MAX) (hcanc : cfg.cancelled = false) :
    ∀ start sum count path ctr,
      (bbDfsFirst data cfg start sum count path ctr).1 ≠ BbRes.cancelled ∧
      (count ≤ cfg.max_count → ∀ p c,
        bbDfsFirst data cfg start sum count path ctr = (BbRes.found p, c) →
        ExtendsToSolution data.sorted cfg start sum count) ∧
      (count ≤ cfg.max_count → ExtendsToSolution data.sorted cfg start sum count →
        (bbDfsFirst data cfg start sum count path ctr).1.isFound = true) := by
  refine bbDfsFirst.induct data cfg
    (fun start sum count path ctr =>
      (bbDfsFirst data cfg start sum count path ctr).1 ≠ BbRes.cancelled ∧
      (count ≤ cfg.max_count → ∀ p c,
        bbDfsFirst data cfg start sum count path ctr = (BbRes.found p, c) →
        ExtendsToSolution data.sorted cfg start sum count) ∧
      (count ≤ cfg.max_count → ExtendsToSolution data.sorted cfg start sum count →
        (bbDfsFirst data cfg start sum count path ctr).1.isFound = true))
    (fun sum count path ctr i =>
      (bbLoop data cfg sum count path ctr i).1 ≠ BbRes.cancelled ∧
      (count < cfg.max_count → ∀ p c,
        bbLoop data cfg sum count path ctr i = (BbRes.found p, c) →
        ExtendsNonempty data.sorted cfg i sum count) ∧
      (count < cfg.max_count → ExtendsNonempty data.sorted cfg i sum count →
        (bbLoop data cfg sum count path ctr i).1.isFound = true))
    ?_ ?_ ?_ ?_ ?_ ?_ ?_ ?_ ?_ ?_ ?_ ?_
  -- node case 1: periodic cancellation fires; impossible with the flag off
  · intro start sum count path ctr h
    rw [hcanc] at h
    exact absurd h.2 Bool.false_ne_true
  -- node case 2: success test fires
  · intro start sum count path ctr h1 h2
    have heq : bbDfsFirst data cfg start sum count path ctr = (BbRes.found path, tick ctr) := by
      simp only [bbDfsFirst]
      rw [if_neg h1, if_pos h2]
    refine ⟨by rw [heq]; simp, ?_, ?_⟩
    · intro hmax p c hpc
      exact ⟨[], List.nil_sublist _, by simpa [valueSum] using h2.1, by
        simpa using h2.2, by simpa using hmax⟩
    · intro hmax hExt
      rw [heq]
      rfl
  -- node case 3: count cap reached
  · intro start sum count path ctr h1 h2 h3
    have heq : bbDfsFirst data cfg start sum count path ctr = (BbRes.notFound, tick ctr) := by
      simp only [bbDfsFirst]
      rw [if_neg h1, if_neg h2, if_pos h3]
    refine ⟨by rw [heq]; simp, ?_, ?_⟩
    · intro hmax p c hpc
      rw [heq] at hpc
      exact absurd hpc (by simp)
    · intro hmax hExt
      rcases hExt with ⟨tail, hsub, hsum, hmin, hmax2⟩
      have hlen : tail.length = 0 := by omega
      rw [List.length_eq_zero] at hlen
      subst hlen
      simp only [valueSum, List.map_nil, List.sum_nil, Nat.add_zero] at hsum hmin
      exact absurd ⟨hsum, hmin⟩ h2
  -- node case 4: not enough elements left for min_count
  · intro start sum count path ctr h1 h2 h3 h4
    have heq : bbDfsFirst data cfg start sum count path ctr = (BbRes.notFound, tick ctr) := by
      simp only [bbDfsFirst]
      rw [if_neg h1, if_neg h2, if_neg h3, if_pos h4]
    refine ⟨by rw [heq]; simp, ?_, ?_⟩
    · intro hmax p c hpc
      rw [heq] at hpc
      exact absurd hpc (by simp)
    · intro hmax hExt
      rcases hExt with ⟨tail, hsub, hsum, hmin, hmax2⟩
      have hlen : tail.length ≤ data.sorted.length - start := by
        have := hsub.length_le
        rwa [List.length_drop] at this
      omega
  -- node case 5: dispatch into the candidate loop
  · intro start sum count path ctr h1 h2 h3 h4 ih
    have heq : bbDfsFirst data cfg start sum count path ctr =
        bbLoop data cfg sum count path (tick ctr) start := by
      simp only [bbDfsFirst]
      rw [if_neg h1, if_neg h2, if_neg h3, if_neg h4]
    have hcnt : count < cfg.max_count := by omega
    refine ⟨by rw [heq]; exact ih.1, ?_, ?_⟩
    · intro hmax p c hpc
      rw [heq] at hpc
      rcases ih.2.1 hcnt p c hpc with ⟨tail, hne, hsub, hsum, hmin, hmax2⟩
      exact ⟨tail, hsub, hsum, hmin, hmax2⟩
    · intro hmax hExt
      rcases hExt with ⟨tail, hsub, hsum, hmin, hmax2⟩
      cases tail with
      | nil =>
        simp only [valueSum, List.map_nil, List.sum_nil, Nat.add_zero] at hsum hmin
        exact absurd ⟨hsum, hmin⟩ h2
      | cons e rest =>
        rw [heq]
        refine ih.2.2 hcnt ⟨e :: rest, List.cons_ne_nil e rest, hsub, hsum, hmin, hmax2⟩
  -- loop case 6: next value exceeds the remaining budget
  · intro sum count path ctr i hin
    dsimp only
    intro hvlt
    have heq : bbLoop data cfg sum count path ctr i = (BbRes.notFound, ctr) := by
      conv_lhs => unfold bbLoop
      rw [dif_pos hin, if_pos hvlt]
    refine ⟨by rw [heq]; simp, ?_, ?_⟩
    · intro hcnt p c hpc
      rw [heq] at hpc
      exact absurd hpc (by simp)
    · intro hcnt hExtN
      rcases hExtN with ⟨tail, hne, hsub, hsum, hmin, hmax2⟩
      cases tail with
      | nil => exact absurd rfl hne
      | cons e rest =>
        have hmem : e ∈ data.sorted.drop i := hsub.subset (List.mem_cons_self e rest)
        have hle := sorted_drop_head_le hsorted i hin hmem
        rw [valueSum_cons] at hsum
        omega
  -- loop case 7: suffix sum below the remaining budget
  · intro sum count path ctr i hin
    dsimp only
    intro hvlt hsuf
    have heq : bbLoop data cfg sum count path ctr i = (BbRes.notFound, ctr) := by
      conv_lhs => unfold bbLoop
      rw [dif_pos hin, if_neg hvlt, if_pos hsuf]
    refine ⟨by rw [heq]; simp, ?_, ?_⟩
    · intro hcnt p c hpc
      rw [heq] at hpc
      exact absurd hpc (by simp)
    · intro hcnt hExtN
      rcases hExtN with ⟨tail, hne, hsub, hsum, hmin, hmax2⟩
      rw [hsuffix, buildSuffix_getD data.sorted i (Nat.le_of_lt hin)] at hsuf
      have hle : valueSum tail ≤ valueSum (data.sorted.drop i) :=
        valueSum_le_of_sublist hsub
      omega
  -- loop case 8: not enough elements left in the tail for min_count
  · intro sum count path ctr i hin
    dsimp only
    intro hvlt hsuf hneed
    have heq : bbLoop data cfg sum count path ctr i = (BbRes.notFound, ctr) := by
      conv_lhs => unfold bbLoop
      rw [dif_pos hin, if_neg hvlt, if_neg hsuf, if_pos hneed]
    refine ⟨by rw [heq]; simp, ?_, ?_⟩
    · intro hcnt p c hpc
      rw [heq] at hpc
      exact absurd hpc (by simp)
    · intro hcnt hExtN
      rcases hExtN with ⟨tail, hne, hsub, hsum, hmin, hmax2⟩
      have hlen : tail.length ≤ data.sorted.length - i := by
        have := hsub.length_le
        rwa [List.length_drop] at this
      omega
  -- loop case 9: the child search found a solution
  · intro sum count path ctr i hin
    dsimp only
    intro hvlt hsuf hneed p c heqchild ih1
    have heq : bbLoop data cfg sum count path ctr i = (BbRes.found p, c) := by
      conv_lhs => unfold bbLoop
      rw [dif_pos hin, if_neg hvlt, if_neg hsuf, if_neg hneed, heqchild]
    refine ⟨by rw [heq]; simp, ?_, ?_⟩
    · intro hcnt p' c' hpc
      rcases ih1.2.1 (by omega) p c heqchild with ⟨tail, hsub, hsum, hmin, hmax2⟩
      refine ⟨data.sorted.getD i default :: tail, List.cons_ne_nil _ _, ?_, ?_, ?_, ?_⟩
      · rw [drop_eq_getD_cons data.sorted i hin]
        exact List.Sublist.cons₂ _ hsub
      · rw [valueSum_cons]
        omega
      · simp only [List.length_cons]
        omega
      · simp only [List.length_cons]
        omega
    · intro hcnt hExtN
      rw [heq]
      rfl
  -- loop case 10: the child search reported cancellation; impossible
  · intro sum count path ctr i hin
    dsimp only
    intro hvlt hsuf hneed c heqchild ih1
    exact absurd (by rw [heqchild] : (bbDfsFirst data cfg (i + 1)
      (sum + (data.sorted.getD i default).value) (count + 1) (path ++ [i]) ctr).1
        = BbRes.cancelled) ih1.1
  -- loop case 11: the child search found nothing; try the next sibling
  · intro sum count path ctr i hin
    dsimp only
    intro hvlt hsuf hneed c heqchild ih1 ih2
    have heq : bbLoop data cfg sum count path ctr i =
        bbLoop data cfg sum count path c (i + 1) := by
      conv_lhs => unfold bbLoop
      rw [dif_pos hin, if_neg hvlt, if_neg hsuf, if_neg hneed, heqchild]
    refine ⟨by rw [heq]; exact ih2.1, ?_, ?_⟩
    · intro hcnt p' c' hpc
      rw [heq] at hpc
      rcases ih2.2.1 hcnt p' c' hpc with ⟨tail, hne, hsub, hsum, hmin, hmax2⟩
      refine ⟨tail, hne, ?_, hsum, hmin, hmax2⟩
      refine hsub.trans ?_
      have h1 : data.sorted.drop (i + 1) = List.drop 1 (data.sorted.drop i) := by
        rw [List.drop_drop]
      rw [h1]
      exact List.drop_sublist 1 _
    · intro hcnt hExtN
      rcases hExtN with ⟨tail, hne, hsub, hsum, hmin, hmax2⟩
      cases tail with
      | nil => exact absurd rfl hne
      | cons e rest =>
        rw [drop_eq_getD_cons data.sorted i hin] at hsub
        cases hsub with
        | cons _ hskip =>
          rw [heq]
          exact ih2.2.2 hcnt ⟨e :: rest, List.cons_ne_nil e rest, hskip, hsum, hmin, hmax2⟩
        | cons₂ _ hhit =>
          have hchild : ExtendsToSolution data.sorted cfg (i + 1)
              (sum + (data.sorted.getD i default).value) (count + 1) := by
            refine ⟨rest, hhit, ?_, ?_, ?_⟩
            · rw [valueSum_cons] at hsum
              omega
            · simp only [List.length_cons] at hmin
              omega
            · simp only [List.length_cons] at hmax2
              omega
          have := ih1.2.2 (by omega) hchild
          rw [heqchild] at this
          exact absurd this (by simp [BbRes.isFound])
  -- loop case 12: the scan ran off the end of the array
  · intro sum count path ctr i hout
    have heq : bbLoop data cfg sum count path ctr i = (BbRes.notFound, ctr) := by
      conv_lhs => unfold bbLoop
      rw [dif_neg hout]
    refine ⟨by rw [heq]; simp, ?_, ?_⟩
    · intro hcnt p c hpc
      rw [heq] at hpc
      exact absurd hpc (by simp)
    · intro hcnt hExtN
      rcases hExtN with ⟨tail, hne, hsub, hsum, hmin, hmax2⟩
      rw [List.drop_eq_nil_of_le (by omega), List.sublist_nil] at hsub
      exact absurd hsub hne

/-- `branch_and_bound_first` succeeds exactly when the root DFS call does. -/
theorem branchAndBoundFirst_isFound (data : PreparedData) (cfg : SolverConfig) :
    (branchAndBoundFirst data cfg).isFound = (bbDfsFirst data cfg 0 0 0 [] 0).1.isFound := by
  unfold branchAndBoundFirst
  cases h : (bbDfsFirst data cfg 0 0 0 [] 0).1 <;>
    simp [SolverResult.isFound, BbRes.isFound]

/-- The branch-and-bound single-result search (with cancellation never set, a
value-sorted array, the saturating suffix table, and a u64 target) succeeds
exactly on feasible instances. -/
theorem bb_isFound_iff (data : PreparedData) (cfg : SolverConfig)
    (hsorted : List.Sorted valueLE data.sorted)
    (hsuffix : data.suffix_sum = buildSuffix data.sorted)
    (htar : cfg.target ≤ U64MAX) (hcanc : cfg.cancelled = false) :
    (branchAndBoundFirst data cfg).isFound = true ↔ Feasible data.sorted cfg := by
  rw [branchAndBoundFirst_isFound]
  constructor
  · intro hf
    cases hr : (bbDfsFirst data cfg 0 0 0 [] 0).1 with
    | found p =>
      have hpair : bbDfsFirst data cfg 0 0 0 [] 0 =
          (BbRes.found p, (bbDfsFirst data cfg 0 0 0 [] 0).2) := by
        rw [← hr]
      rcases (bb_main data cfg hsorted hsuffix htar hcanc 0 0 0 [] 0).2.1
        (Nat.zero_le _) p _ hpair with ⟨tail, hsub, hsum, hmin, hmax⟩
      exact ⟨tail, by simpa using hsub, by simpa using hsum, by simpa using hmin,
        by simpa using hmax⟩
    | notFound =>
      rw [hr] at hf
      exact absurd hf (by simp [BbRes.isFound])
    | cancelled =>
      rw [hr] at hf
      exact absurd hf (by simp [BbRes.isFound])
  · intro hfeas
    rcases hfeas with ⟨c, hsub, hsum, hmin, hmax⟩
    exact (bb_main data cfg hsorted hsuffix htar hcanc 0 0 0 [] 0).2.2 (Nat.zero_le _)
      ⟨c, by simpa using hsub, by simpa using hsum, by simpa using hmin,
        by simpa using hmax⟩

/-- C8: counterexample to the claim as stated.  At target `2^64 - 2` with
values `{2^63, 2^63, 2^64 - 2}` (each positive and at most the target, so
within the caller precondition) and `minCount = maxCount = 3`, the instance is
infeasible — the only 3-element subset sums to `2^65 - 2` — and branch-and-
bound correctly reports nothing; but the meet-in-the-middle right pass at mask
`{2^63, 2^64 - 2}` wraps its u64 running sum around to `2^63 - 2 ≤ target`,
survives the overshoot test, looks up the complementary `2^63` in the left
bucket, and returns a bogus combination.  So for `n ≤ 40` with cancellation
never set the two paths do not always agree on feasibility. -/
theorem c8_wrap_disagreement :
    (meetInTheMiddle (PreparedData.new
        [⟨2 ^ 63, 0⟩, ⟨2 ^ 63, 1⟩, ⟨2 ^ 64 - 2, 2⟩])
      ⟨2 ^ 64 - 2, 3, 3, false⟩).isSome = true ∧
      (branchAndBoundFirst (PreparedData.new
          [⟨2 ^ 63, 0⟩, ⟨2 ^ 63, 1⟩, ⟨2 ^ 64 - 2, 2⟩])
        ⟨2 ^ 64 - 2, 3, 3, false⟩).isFound = false := by
  constructor
  · decide
  · have hnf : ¬ Feasible (PreparedData.new
        [⟨2 ^ 63, 0⟩, ⟨2 ^ 63, 1⟩, ⟨2 ^ 64 - 2, 2⟩]).sorted
        ⟨2 ^ 64 - 2, 3, 3, false⟩ := by
      rintro ⟨c, hsub, hsum, hmin, hmax⟩
      have hlen : (PreparedData.new
          [⟨2 ^ 63, 0⟩, ⟨2 ^ 63, 1⟩, ⟨2 ^ 64 - 2, 2⟩]).sorted.length = 3 := by decide
      have hceq : c = (PreparedData.new
          [⟨2 ^ 63, 0⟩, ⟨2 ^ 63, 1⟩, ⟨2 ^ 64 - 2, 2⟩]).sorted := by
        apply hsub.eq_of_length
        have hmin' : (3 : Nat) ≤ c.length := hmin
        have hle := hsub.length_le
        omega
      subst hceq
      revert hsum
      decide
    have h2 := bb_isFound_iff (PreparedData.new
        [⟨2 ^ 63, 0⟩, ⟨2 ^ 63, 1⟩, ⟨2 ^ 64 - 2, 2⟩]) ⟨2 ^ 64 - 2, 3, 3, false⟩
      (by decide) rfl (by decide) rfl
    cases hb : (branchAndBoundFirst (PreparedData.new
        [⟨2 ^ 63, 0⟩, ⟨2 ^ 63, 1⟩, ⟨2 ^ 64 - 2, 2⟩])
      ⟨2 ^ 64 - 2, 3, 3, false⟩).isFound
    · rfl
    · exact absurd (h2.mp hb) hnf

/-- C8: the claim amended as the counterexample forces.  For every instance
with at most 40 entries, cancellation never set, every entry value at most the
target (the caller precondition), and `2 * target` within u64 range — so the
meet-in-the-middle u64 accumulation can never wrap — the meet-in-the-middle
path and the branch-and-bound single-result path agree on feasibility: the
first finds some valid combination exactly when the second reports `Found`.
Both are proved equivalent to the existence of a sub-selection of the
prepared array summing to the target within the count window. -/
theorem c8_mitm_bb_agree_on_feasibility (entries : List NumberEntry)
    (cfg : SolverConfig) (hn : entries.length ≤ 40)
    (hcanc : cfg.cancelled = false)
    (hvals : ∀ e ∈ entries, e.value ≤ cfg.target)
    (htar2 : 2 * cfg.target ≤ U64MAX) :
    (meetInTheMiddle (PreparedData.new entries) cfg).isSome =
      (branchAndBoundFirst (PreparedData.new entries) cfg).isFound := by
  have htar : cfg.target ≤ U64MAX := by omega
  have hsorted : List.Sorted valueLE (PreparedData.new entries).sorted :=
    List.sorted_insertionSort valueLE entries
  have hsuffix : (PreparedData.new entries).suffix_sum =
      buildSuffix (PreparedData.new entries).sorted := rfl
  have hvals2 : ∀ e ∈ (PreparedData.new entries).sorted, e.value ≤ cfg.target :=
    fun e he => hvals e ((List.perm_insertionSort valueLE entries).mem_iff.mp he)
  have h1 := meetInTheMiddle_isSome_iff (PreparedData.new entries) cfg hcanc hvals2 htar2
  have h2 := bb_isFound_iff (PreparedData.new entries) cfg hsorted hsuffix htar hcanc
  cases hm : (meetInTheMiddle (PreparedData.new entries) cfg).isSome <;>
    cases hb : (branchAndBoundFirst (PreparedData.new entries) cfg).isFound <;>
    simp_all

/-- Witness for C8 on a concrete solvable instance. -/
theorem c8_witness :
    (meetInTheMiddle (PreparedData.new [⟨1, 0⟩, ⟨2, 1⟩, ⟨3, 2⟩]) ⟨3, 1, 3, false⟩).isSome =
      (branchAndBoundFirst (PreparedData.new [⟨1, 0⟩, ⟨2, 1⟩, ⟨3, 2⟩])
        ⟨3, 1, 3, false⟩).isFound :=
  c8_mitm_bb_agree_on_feasibility [⟨1, 0⟩, ⟨2, 1⟩, ⟨3, 2⟩] ⟨3, 1, 3, false⟩ (by decide)
    rfl (by decide) (by decide)

end TargetSum

